import Mathlib

/-
Verification of the ALS numerical core (src/implicit/_implicit.pyx).

The source is a Cython module with three entry points, `least_squares`
(direct per-user solve), `least_squares_cg` (conjugate-gradient per-user
solve) and `calculate_loss` (global training loss).  This file gives a
shallow embedding of the three functions over exact rational arithmetic:

* Machine floating point is modelled by `ℚ` (exact real arithmetic).
* The dense factor matrices are `Matrix (Fin users) (Fin F) ℚ` and
  `Matrix (Fin items) (Fin F) ℚ`; the sparse confidence matrix keeps the
  raw CSR arrays (`indptr`, `indices`, `data`) exactly as the source
  receives them, so malformed row pointers are expressible.
* The source compiles with `boundscheck(False)`; an out-of-range read is
  undefined behaviour there, and is modelled here as reading zero
  (`List.getD _ _ 0`, `yRow`).
* The BLAS collaborators `axpy`, `dot`, `scal`, `symv` are modelled by the
  vector operations they compute; `symv` is always called by the source on
  exactly symmetric matrices, so it is modelled as a full matrix-vector
  product.
* The LAPACK collaborators are modelled by their documented
  contracts: `posv` (Cholesky solve) succeeds exactly when every leading
  principal minor of the (symmetric) system matrix is positive, and its
  failure status is the 1-based order of the first nonpositive leading
  minor; `gesv` (pivoted LU solve) succeeds exactly when the matrix is
  nonsingular.  On failure, `posv`/`gesv` are modelled as leaving the
  right-hand side unchanged (LAPACK documents only that no solution was
  computed; the failure status of a singular `gesv` is modelled as 1,
  where LAPACK would report some pivot position).
* The `prange` loops are parallel over users, each user reading only
  shared read-only data and writing only its own row of `X`; they are
  modelled by the equivalent sequential left-to-right loop.  The scalar
  accumulators of `calculate_loss` are `prange` reductions, likewise
  sequentialised.
-/

namespace Implicit

open Matrix

/-- Compressed sparse row confidence matrix exactly as the source receives
it: the `shape` pair, the row pointer array, the column index array and
the value array.  `nnz` is the length of the value array (scipy's
`csr_matrix.nnz`).  Nothing in this structure is validated; the source
performs no validation either. -/
structure Csr where
  shape0 : Nat
  shape1 : Nat
  indptr : List Nat
  indices : List Nat
  data : List ℚ
deriving DecidableEq, Repr

/-- `Cui.nnz` of scipy: number of stored values. -/
def Csr.nnz (c : Csr) : Nat := c.data.length

/-- The (item index, confidence) pairs scanned by the source loop
`for index in range(indptr[u], indptr[u+1])` for row `u`.  Reads outside
the arrays (possible with a malformed CSR, `boundscheck` is off in the
source) are modelled as reading 0. -/
def Csr.obsList (c : Csr) (u : Nat) : List (Nat × ℚ) :=
  (List.range' (c.indptr.getD u 0) (c.indptr.getD (u + 1) 0 - c.indptr.getD u 0)).map
    (fun idx => (c.indices.getD idx 0, c.data.getD idx 0))

/-- Well-formedness of the CSR input, following §3 of the spec: row
pointer array of length `users+1`, starting at 0, monotone, ending at
`nnz`; index and value arrays of equal length; within each row the stored
column indices are distinct (the spec's ordered column-index array), in
range, and the stored confidences are non-negative. -/
def Csr.wf (c : Csr) (users items : Nat) : Prop :=
  c.indptr.length = users + 1 ∧
  c.indptr.getD 0 0 = 0 ∧
  (∀ u, u < users → c.indptr.getD u 0 ≤ c.indptr.getD (u + 1) 0) ∧
  c.indptr.getD users 0 = c.data.length ∧
  c.indices.length = c.data.length ∧
  (∀ u, u < users → ((c.obsList u).map Prod.fst).Nodup) ∧
  (∀ u, u < users → ∀ p ∈ c.obsList u, p.1 < items ∧ 0 ≤ p.2)

instance (c : Csr) (users items : Nat) : Decidable (c.wf users items) :=
  inferInstanceAs (Decidable
    (c.indptr.length = users + 1 ∧
      c.indptr.getD 0 0 = 0 ∧
      (∀ u, u < users → c.indptr.getD u 0 ≤ c.indptr.getD (u + 1) 0) ∧
      c.indptr.getD users 0 = c.data.length ∧
      c.indices.length = c.data.length ∧
      (∀ u, u < users → ((c.obsList u).map Prod.fst).Nodup) ∧
      (∀ u, u < users → ∀ p ∈ c.obsList u, p.1 < items ∧ 0 ≤ p.2)))

instance {ε α : Type*} [DecidableEq ε] [DecidableEq α] : DecidableEq (Except ε α) :=
  fun a b =>
  match a, b with
  | .ok x, .ok y =>
    if h : x = y then .isTrue (by rw [h])
    else .isFalse (fun hc => h (by injection hc))
  | .error x, .error y =>
    if h : x = y then .isTrue (by rw [h])
    else .isFalse (fun hc => h (by injection hc))
  | .ok _, .error _ => .isFalse (fun hc => Except.noConfusion hc)
  | .error _, .ok _ => .isFalse (fun hc => Except.noConfusion hc)

section Model

variable {users items F : Nat}

/-- Row `i` of the item factor matrix as read through the raw C pointer
`&Y[i, 0]`; an out-of-range row index (undefined behaviour in the source)
is modelled as the zero row. -/
def yRow (Y : Matrix (Fin items) (Fin F) ℚ) (i : Nat) : Fin F → ℚ :=
  if h : i < items then Y ⟨i, h⟩ else 0

/-- `initialA = YtY + regularization * eye(factors)`: the shared base
matrix of the per-user normal equations (also the `YtY` of
`least_squares_cg`, which adds the regularization into the Gram matrix
up front). -/
def initialA (Y : Matrix (Fin items) (Fin F) ℚ) (reg : ℚ) : Matrix (Fin F) (Fin F) ℚ :=
  Yᵀ * Y + reg • (1 : Matrix (Fin F) (Fin F) ℚ)

/-- The per-user system matrix `A` as the source accumulates it:
start from `initialA`, and for every stored (item, confidence) pair add
the rank-1 update `(confidence - 1) · yᵢ yᵢᵗ` (the `axpy` column loop). -/
def buildA (c : Csr) (Y : Matrix (Fin items) (Fin F) ℚ) (reg : ℚ) (u : Nat) :
    Matrix (Fin F) (Fin F) ℚ :=
  (c.obsList u).foldl
    (fun A ic => A + (ic.2 - 1) • Matrix.vecMulVec (yRow Y ic.1) (yRow Y ic.1))
    (initialA Y reg)

/-- The per-user right-hand side `b` as the source accumulates it:
start from the zero vector and add `confidence · yᵢ` per stored pair. -/
def buildB (c : Csr) (Y : Matrix (Fin items) (Fin F) ℚ) (u : Nat) : Fin F → ℚ :=
  (c.obsList u).foldl (fun b ic => b + ic.2 • yRow Y ic.1) 0

/-- The per-user system matrix written as the sum claim C1 states:
`YtY + regularization·I + Σ (confidence−1)·yᵢyᵢᵗ`. -/
def specA (c : Csr) (Y : Matrix (Fin items) (Fin F) ℚ) (reg : ℚ) (u : Nat) :
    Matrix (Fin F) (Fin F) ℚ :=
  initialA Y reg +
    ((c.obsList u).map
      (fun ic => (ic.2 - 1) • Matrix.vecMulVec (yRow Y ic.1) (yRow Y ic.1))).sum

/-- The per-user right-hand side written as the sum claim C1 states:
`Σ confidence · yᵢ`. -/
def specB (c : Csr) (Y : Matrix (Fin items) (Fin F) ℚ) (u : Nat) : Fin F → ℚ :=
  ((c.obsList u).map (fun ic => ic.2 • yRow Y ic.1)).sum

/-- An executable determinant (Laplace expansion along the first row),
provably equal to `Matrix.det` (`detQ_eq_det` below); used so that the
model evaluates on concrete inputs. -/
def detQ : {n : Nat} → Matrix (Fin n) (Fin n) ℚ → ℚ
  | 0, _ => 1
  | n + 1, A =>
    ∑ j : Fin (n + 1), (-1) ^ (j : Nat) * A 0 j * detQ (A.submatrix Fin.succ j.succAbove)

/-- Leading principal minor of order `k+1` of an `F × F` matrix. -/
def leadingMinor (A : Matrix (Fin F) (Fin F) ℚ) (k : Fin F) : ℚ :=
  detQ (A.submatrix (Fin.castLE k.isLt) (Fin.castLE k.isLt))

/-- Exact solution of the linear system `A x = b` by Cramer's rule;
meaningful only when the determinant is nonzero. -/
def exactSolve (A : Matrix (Fin F) (Fin F) ℚ) (b : Fin F → ℚ) : Fin F → ℚ :=
  fun i => detQ (A.updateColumn i b) / detQ A

/-- Model of LAPACK `posv` (Cholesky factorisation and solve) on the
symmetric system matrix: the returned status is 0 and the right-hand side
is overwritten with the solution when every leading principal minor is
positive (exact-arithmetic Cholesky succeeds); otherwise the status is
the 1-based order of the first nonpositive leading principal minor and
the right-hand side is returned unchanged (LAPACK computes no solution
in that case). -/
def posv (A : Matrix (Fin F) (Fin F) ℚ) (b : Fin F → ℚ) : Nat × (Fin F → ℚ) :=
  match (List.finRange F).find? (fun k => decide (leadingMinor A k ≤ 0)) with
  | some k => (k.val + 1, b)
  | none => (0, exactSolve A b)

/-- Model of LAPACK `gesv` (LU factorisation with partial pivoting and
solve): status 0 and the solution when the matrix is nonsingular,
otherwise a nonzero status (modelled as 1) and the right-hand side
unchanged. -/
def gesv (A : Matrix (Fin F) (Fin F) ℚ) (b : Fin F → ℚ) : Nat × (Fin F → ℚ) :=
  if detQ A = 0 then (1, b) else (0, exactSolve A b)

/-- The per-user direct solve of `least_squares`, lines 97–108 of the
source: try `posv`; on a nonzero status retry with `gesv` on the same
`A`, `b`; if that status is also nonzero the result is the error status
(raised by the source as `ValueError("Singular matrix (err=%i) on row %i")`). -/
def solveOne (A : Matrix (Fin F) (Fin F) ℚ) (b : Fin F → ℚ) : Except Nat (Fin F → ℚ) :=
  let pr := posv A b
  if pr.1 = 0 then .ok pr.2
  else
    let gr := gesv A b
    if gr.1 = 0 then .ok gr.2 else .error gr.1

/-- The error raised by `least_squares`: the numerical status code, the
failing user row, and (for stating frame properties) the contents of `X`
at the moment the error aborts the call. -/
structure SolveErr (users F : Nat) where
  code : Nat
  user : Fin users
  partialX : Matrix (Fin users) (Fin F) ℚ
deriving DecidableEq

/-- Sequentialisation of the `prange` user loop of `least_squares`:
process the remaining users in order; on success overwrite that user's
row of `X`, on failure abort the whole call. -/
def lsGo (c : Csr) (Y : Matrix (Fin items) (Fin F) ℚ) (reg : ℚ) :
    List (Fin users) → Matrix (Fin users) (Fin F) ℚ →
      Except (SolveErr users F) (Matrix (Fin users) (Fin F) ℚ)
  | [], Xc => .ok Xc
  | u :: rest, Xc =>
    match solveOne (buildA c Y reg u.val) (buildB c Y u.val) with
    | .ok x => lsGo c Y reg rest (Xc.updateRow u x)
    | .error e => .error ⟨e, u, Xc⟩

/-- Embedding of `least_squares` (the direct ALS solver, source lines
51–113): for each user build `A` and `b` from the shared `initialA` and
the user's stored row, solve directly (Cholesky, then LU fallback), and
write the solution into the user's row of `X`. -/
def least_squares (c : Csr) (X : Matrix (Fin users) (Fin F) ℚ)
    (Y : Matrix (Fin items) (Fin F) ℚ) (reg : ℚ) :
    Except (SolveErr users F) (Matrix (Fin users) (Fin F) ℚ) :=
  lsGo c Y reg (List.finRange users) X

/-- State of the conjugate-gradient iteration for one user: the current
solution estimate `x`, residual `r`, search direction `p` and squared
residual norm `rsold`. -/
structure CgState (F : Nat) where
  x : Fin F → ℚ
  r : Fin F → ℚ
  p : Fin F → ℚ
  rsold : ℚ
deriving DecidableEq

/-- The initial residual of `least_squares_cg`, source lines 146–154:
`symv` with coefficient −1 applied to the regularised Gram matrix and the
user's current factor row, then for each stored pair an `axpy` with
coefficient `confidence − (confidence − 1)·(yᵢ·x)`. -/
def cgResidual0 (c : Csr) (Y : Matrix (Fin items) (Fin F) ℚ) (reg : ℚ) (u : Nat)
    (x : Fin F → ℚ) : Fin F → ℚ :=
  (c.obsList u).foldl
    (fun r ic => r + (ic.2 - (ic.2 - 1) * (yRow Y ic.1 ⬝ᵥ x)) • yRow Y ic.1)
    ((-1 : ℚ) • (initialA Y reg *ᵥ x))

/-- The matrix-free product `Ap` of `least_squares_cg`, source lines
160–167: `symv` with the regularised Gram matrix plus, for each stored
pair, an `axpy` with coefficient `(confidence − 1)·(yᵢ·p)`. -/
def cgAp (c : Csr) (Y : Matrix (Fin items) (Fin F) ℚ) (reg : ℚ) (u : Nat)
    (p : Fin F → ℚ) : Fin F → ℚ :=
  (c.obsList u).foldl
    (fun ap ic => ap + ((ic.2 - 1) * (yRow Y ic.1 ⬝ᵥ p)) • yRow Y ic.1)
    (initialA Y reg *ᵥ p)

/-- One iteration of the conjugate-gradient loop exactly as the source
performs it (lines 158–187), together with the pair
(denominator `p·Ap` of `alpha`, current `rsold`) for stating
division-safety properties.  Both divisions are unguarded in the source
(`cdivision(True)`); over `ℚ` division by zero yields 0, where C floating
point would yield NaN or infinity. -/
def cgStep (c : Csr) (Y : Matrix (Fin items) (Fin F) ℚ) (reg : ℚ) (u : Nat)
    (s : CgState F) : CgState F × (ℚ × ℚ) :=
  let Ap := cgAp c Y reg u s.p
  let den := s.p ⬝ᵥ Ap
  let alpha := s.rsold / den
  let x := s.x + alpha • s.p
  let r := s.r + (alpha * -1) • Ap
  let rsnew := r ⬝ᵥ r
  let p := (rsnew / s.rsold) • s.p + r
  (⟨x, r, p, rsnew⟩, (den, s.rsold))

/-- The fixed-count conjugate-gradient loop: `n` iterations of `cgStep`,
returning the final state and the per-iteration `(p·Ap, rsold)` trace. -/
def cgLoop (c : Csr) (Y : Matrix (Fin items) (Fin F) ℚ) (reg : ℚ) (u : Nat) :
    Nat → CgState F → CgState F × List (ℚ × ℚ)
  | 0, s => (s, [])
  | n + 1, s =>
    let step := cgStep c Y reg u s
    let rest := cgLoop c Y reg u n step.1
    (rest.1, step.2 :: rest.2)

/-- The whole per-user computation of `least_squares_cg`: warm-start from
the user's current row, form the initial residual, then run the fixed
number of iterations. -/
def cgUser (c : Csr) (Y : Matrix (Fin items) (Fin F) ℚ) (reg : ℚ) (steps : Nat)
    (u : Nat) (x0 : Fin F → ℚ) : CgState F × List (ℚ × ℚ) :=
  let r := cgResidual0 c Y reg u x0
  cgLoop c Y reg u steps ⟨x0, r, r, r ⬝ᵥ r⟩

/-- Embedding of `least_squares_cg` (source lines 118–191): for each user,
run the conjugate-gradient iteration warm-started from that user's row of
`X`, writing the result back in place.  `cg_steps` is a C `int`; the
source's `for it in range(cg_steps)` performs `max cg_steps 0` iterations,
modelled by `Int.toNat`.  The function has no failure path. -/
def least_squares_cg (c : Csr) (X : Matrix (Fin users) (Fin F) ℚ)
    (Y : Matrix (Fin items) (Fin F) ℚ) (reg : ℚ) (cg_steps : Int) :
    Matrix (Fin users) (Fin F) ℚ :=
  (List.finRange users).foldl
    (fun Xc u => Xc.updateRow u (cgUser c Y reg cg_steps.toNat u.val (Xc u)).1.x) X

/-- The `(p·Ap, rsold)` pairs encountered at the unguarded divisions of
`least_squares_cg` for user `u`, in iteration order. -/
def cgTrace (c : Csr) (X : Matrix (Fin users) (Fin F) ℚ)
    (Y : Matrix (Fin items) (Fin F) ℚ) (reg : ℚ) (cg_steps : Int) (u : Fin users) :
    List (ℚ × ℚ) :=
  (cgUser c Y reg cg_steps.toNat u.val (X u)).2

/-- One conjugate-gradient iteration as the spec states it (§4.3,
claim C4), with the per-user matrix `A` explicit:
`α = rsold/(p·Ap); x += α·p; r −= α·Ap; p = r + (rsnew/rsold)·p`. -/
def cgSpecStep (A : Matrix (Fin F) (Fin F) ℚ) (s : CgState F) : CgState F :=
  let Ap := A *ᵥ s.p
  let alpha := s.rsold / (s.p ⬝ᵥ Ap)
  let x := s.x + alpha • s.p
  let r := s.r - alpha • Ap
  let rsnew := r ⬝ᵥ r
  ⟨x, r, r + (rsnew / s.rsold) • s.p, rsnew⟩

/-- The conjugate-gradient recurrence as the spec states it: start from
`x₀`, take `r₀ = b − A·x₀`, `p₀ = r₀`, and run exactly `steps` iterations
of `cgSpecStep` — no residual-threshold early exit. -/
def cgSpec (A : Matrix (Fin F) (Fin F) ℚ) (b x0 : Fin F → ℚ) (steps : Nat) :
    Fin F → ℚ :=
  let r := b - A *ᵥ x0
  ((cgSpecStep A)^[steps] ⟨x0, r, r, r ⬝ᵥ r⟩).x

/-- Accumulator state of `calculate_loss`: the scalar reduction variables
`loss`, `total_confidence`, `user_norm` of the source, together with the
factor matrices so that the embedding records what the call does to them
(the source never writes either). -/
structure LossState (users items F : Nat) where
  loss : ℚ
  tconf : ℚ
  unorm : ℚ
  X : Matrix (Fin users) (Fin F) ℚ
  Y : Matrix (Fin items) (Fin F) ℚ

/-- The inner item loop of `calculate_loss` (source lines 219–227) for one
user: starting from `r` and the running `loss` and `total_confidence`,
for each stored pair add
`((confidence−1)·(yᵢ·x) − 2·confidence) · yᵢ` to `r` and add the
confidence to both accumulators. -/
def lossInnerFold (Y : Matrix (Fin items) (Fin F) ℚ) (x : Fin F → ℚ)
    (obs : List (Nat × ℚ)) (r0 : Fin F → ℚ) (loss0 tc0 : ℚ) :
    (Fin F → ℚ) × ℚ × ℚ :=
  obs.foldl
    (fun s ic =>
      (s.1 + ((ic.2 - 1) * (yRow Y ic.1 ⬝ᵥ x) - 2 * ic.2) • yRow Y ic.1,
        s.2.1 + ic.2, s.2.2 + ic.2))
    (r0, loss0, tc0)

/-- The per-user step of `calculate_loss` (source lines 214–230): form
`r = YtY·x` by `symv` (β = 0, so the scratch content is irrelevant), run
the inner item loop, then add `r·x` to the loss and `x·x` to the user
norm.  The factor matrices are read, never written. -/
def lossUserStep (c : Csr) (st : LossState users items F) (u : Fin users) :
    LossState users items F :=
  let r0 := (st.Yᵀ * st.Y) *ᵥ st.X u
  let s := lossInnerFold st.Y (st.X u) (c.obsList u.val) r0 st.loss st.tconf
  { st with
    loss := s.2.1 + (s.1 ⬝ᵥ st.X u)
    tconf := s.2.2
    unorm := st.unorm + (st.X u ⬝ᵥ st.X u) }

/-- Embedding of `calculate_loss` (source lines 196–239), returning the
loss value together with the final contents of the factor matrices.  After
the user loop, the item loop accumulates `item_norm = Σ ‖yᵢ‖²`; the result
is `(loss + reg·(item_norm + user_norm)) / (total_confidence +
shape0·shape1 − nnz)`. -/
def calculate_loss_full (c : Csr) (X : Matrix (Fin users) (Fin F) ℚ)
    (Y : Matrix (Fin items) (Fin F) ℚ) (reg : ℚ) :
    ℚ × Matrix (Fin users) (Fin F) ℚ × Matrix (Fin items) (Fin F) ℚ :=
  let fin := (List.finRange users).foldl (lossUserStep c)
    { loss := 0, tconf := 0, unorm := 0, X := X, Y := Y }
  let inorm := (List.finRange items).foldl (fun a i => a + (fin.Y i ⬝ᵥ fin.Y i)) 0
  let total := fin.loss + reg * (inorm + fin.unorm)
  (total / (fin.tconf + (c.shape0 * c.shape1 : ℚ) - (c.nnz : ℚ)), fin.X, fin.Y)

/-- The loss value returned by `calculate_loss`. -/
def calculate_loss (c : Csr) (X : Matrix (Fin users) (Fin F) ℚ)
    (Y : Matrix (Fin items) (Fin F) ℚ) (reg : ℚ) : ℚ :=
  (calculate_loss_full c X Y reg).1

/-- The corrected vector `r` of one user of `calculate_loss`, written as
the sum the spec states: `(YtY)·x` plus
`((confidence−1)·(yᵢ·x) − 2·confidence) · yᵢ` per stored pair. -/
def lossR (c : Csr) (Y : Matrix (Fin items) (Fin F) ℚ) (x : Fin F → ℚ) (u : Nat) :
    Fin F → ℚ :=
  (Yᵀ * Y) *ᵥ x +
    ((c.obsList u).map
      (fun ic => ((ic.2 - 1) * (yRow Y ic.1 ⬝ᵥ x) - 2 * ic.2) • yRow Y ic.1)).sum

/-- The total confidence exactly as `calculate_loss` accumulates it: the
sum of the confidences scanned over every user's row range.  For a
well-formed CSR this is the sum of all stored values. -/
def codeTotalConf (c : Csr) (users : Nat) : ℚ :=
  ∑ u : Fin users, ((c.obsList u.val).map Prod.snd).sum

/-- The loss formula exactly as claim C2 states it: per-user terms `r·x`
only, plus the regularisation term, divided by
`total_confidence + users·items − nnz` with `total_confidence` the sum of
all stored confidence values.  (Kept verbatim from the claim for
comparison with `calculate_loss`; the code's numerator differs.) -/
def claimLossC2 (c : Csr) (X : Matrix (Fin users) (Fin F) ℚ)
    (Y : Matrix (Fin items) (Fin F) ℚ) (reg : ℚ) : ℚ :=
  ((∑ u : Fin users, lossR c Y (X u) u.val ⬝ᵥ X u) +
      reg * ((∑ u : Fin users, X u ⬝ᵥ X u) + ∑ i : Fin items, Y i ⬝ᵥ Y i)) /
    (c.data.sum + (c.shape0 * c.shape1 : ℚ) - (c.nnz : ℚ))

/-- The closed form of the value `calculate_loss` actually returns: the
numerator additionally contains the accumulated total confidence (the
source's `loss += confidence` line, which claim C2 omits). -/
def lossClosedForm (c : Csr) (X : Matrix (Fin users) (Fin F) ℚ)
    (Y : Matrix (Fin items) (Fin F) ℚ) (reg : ℚ) : ℚ :=
  (codeTotalConf c users + (∑ u : Fin users, lossR c Y (X u) u.val ⬝ᵥ X u) +
      reg * ((∑ u : Fin users, X u ⬝ᵥ X u) + ∑ i : Fin items, Y i ⬝ᵥ Y i)) /
    (codeTotalConf c users + (c.shape0 * c.shape1 : ℚ) - (c.nnz : ℚ))

end Model

/-- One user, one item, a single stored confidence 2 at column 0. -/
def csrOne : Csr := ⟨1, 1, [0, 1], [0], [2]⟩

/-- One user, one item, an empty row (no observed items). -/
def csrEmptyRow : Csr := ⟨1, 1, [0, 0], [], []⟩

/-- A malformed row pointer array: it starts at 1, is not monotone, and
does not end at `nnz`.  The source scans `range(1, 0)`, the empty range. -/
def csrBadPtr : Csr := ⟨1, 1, [1, 0], [0], [2]⟩

/-- One user, one item, a single stored (ill-formed) negative confidence;
it makes the per-user system matrix indefinite but nonsingular, so the
Cholesky attempt fails and the LU fallback succeeds. -/
def csrNegConf : Csr := ⟨1, 1, [0, 1], [0], [-1]⟩

section Lemmas

variable {users items F : Nat}

theorem foldl_add_sum {M α : Type*} [AddCommMonoid M] (f : α → M) (l : List α) (a : M) :
    l.foldl (fun acc x => acc + f x) a = a + (l.map f).sum := by
  induction l generalizing a with
  | nil => simp
  | cons x l ih => simp [ih, add_assoc]

theorem listSum_mulVec {α : Type*} {n : Nat} (l : List α)
    (f : α → Matrix (Fin n) (Fin n) ℚ) (v : Fin n → ℚ) :
    (l.map f).sum *ᵥ v = (l.map fun x => f x *ᵥ v).sum := by
  induction l with
  | nil => simp [Matrix.zero_mulVec]
  | cons x l ih => simp [Matrix.add_mulVec, ih]

theorem listSum_map_sub {M α : Type*} [AddCommGroup M] (f g : α → M) (l : List α) :
    (l.map fun x => f x - g x).sum = (l.map f).sum - (l.map g).sum := by
  induction l with
  | nil => simp
  | cons x l ih =>
    simp only [List.map_cons, List.sum_cons, ih]
    abel

theorem vecMulVec_mulVec {a b : Type*} [Fintype b] (y : a → ℚ) (z v : b → ℚ) :
    Matrix.vecMulVec y z *ᵥ v = (z ⬝ᵥ v) • y := by
  funext i
  simp only [Matrix.mulVec, Matrix.vecMulVec_apply, dotProduct, Pi.smul_apply, smul_eq_mul,
    Finset.sum_mul]
  exact Finset.sum_congr rfl fun j _ => by ring

theorem buildA_eq_specA (c : Csr) (Y : Matrix (Fin items) (Fin F) ℚ) (reg : ℚ) (u : Nat) :
    buildA c Y reg u = specA c Y reg u :=
  foldl_add_sum _ _ _

theorem buildB_eq_specB (c : Csr) (Y : Matrix (Fin items) (Fin F) ℚ) (u : Nat) :
    buildB c Y u = specB c Y u := by
  unfold buildB specB
  rw [foldl_add_sum, zero_add]

theorem specA_mulVec (c : Csr) (Y : Matrix (Fin items) (Fin F) ℚ) (reg : ℚ) (u : Nat)
    (p : Fin F → ℚ) :
    specA c Y reg u *ᵥ p =
      initialA Y reg *ᵥ p +
        ((c.obsList u).map
          (fun ic => ((ic.2 - 1) * (yRow Y ic.1 ⬝ᵥ p)) • yRow Y ic.1)).sum := by
  unfold specA
  rw [Matrix.add_mulVec, listSum_mulVec]
  have h : (fun (ic : Nat × ℚ) =>
        ((ic.2 - 1) • Matrix.vecMulVec (yRow Y ic.1) (yRow Y ic.1)) *ᵥ p) =
      fun ic => ((ic.2 - 1) * (yRow Y ic.1 ⬝ᵥ p)) • yRow Y ic.1 := by
    funext ic
    rw [Matrix.smul_mulVec_assoc, vecMulVec_mulVec, smul_smul]
  rw [h]

theorem cgAp_eq_specA_mulVec (c : Csr) (Y : Matrix (Fin items) (Fin F) ℚ) (reg : ℚ)
    (u : Nat) (p : Fin F → ℚ) :
    cgAp c Y reg u p = specA c Y reg u *ᵥ p := by
  unfold cgAp
  rw [foldl_add_sum, specA_mulVec]

theorem cgResidual0_eq (c : Csr) (Y : Matrix (Fin items) (Fin F) ℚ) (reg : ℚ)
    (u : Nat) (x : Fin F → ℚ) :
    cgResidual0 c Y reg u x = specB c Y u - specA c Y reg u *ᵥ x := by
  unfold cgResidual0
  rw [foldl_add_sum, specA_mulVec]
  have hsplit :
      ((c.obsList u).map
        (fun ic => (ic.2 - (ic.2 - 1) * (yRow Y ic.1 ⬝ᵥ x)) • yRow Y ic.1)).sum =
      ((c.obsList u).map (fun ic => ic.2 • yRow Y ic.1)).sum -
        ((c.obsList u).map
          (fun ic => ((ic.2 - 1) * (yRow Y ic.1 ⬝ᵥ x)) • yRow Y ic.1)).sum := by
    rw [← listSum_map_sub]
    have h : (fun (ic : Nat × ℚ) =>
          (ic.2 - (ic.2 - 1) * (yRow Y ic.1 ⬝ᵥ x)) • yRow Y ic.1) =
        fun ic => ic.2 • yRow Y ic.1 -
          ((ic.2 - 1) * (yRow Y ic.1 ⬝ᵥ x)) • yRow Y ic.1 := by
      funext ic
      rw [sub_smul]
    rw [h]
  rw [hsplit]
  unfold specB
  module

/-- Exact-arithmetic Cholesky success criterion: every leading principal
minor is positive.  This is precisely the condition under which the
modelled `posv` reports status 0. -/
def CholOk (A : Matrix (Fin F) (Fin F) ℚ) : Prop :=
  ∀ k : Fin F, 0 < leadingMinor A k

instance (A : Matrix (Fin F) (Fin F) ℚ) : Decidable (CholOk A) :=
  inferInstanceAs (Decidable (∀ k : Fin F, 0 < leadingMinor A k))

theorem detQ_eq_det : ∀ {n : Nat} (A : Matrix (Fin n) (Fin n) ℚ), detQ A = A.det
  | 0, A => by rw [Matrix.det_fin_zero]; rfl
  | n + 1, A => by
    rw [Matrix.det_succ_row_zero]
    show (∑ j : Fin (n + 1),
      (-1) ^ (j : Nat) * A 0 j * detQ (A.submatrix Fin.succ j.succAbove)) = _
    exact Finset.sum_congr rfl fun j _ => by rw [detQ_eq_det]

theorem exactSolve_eq_cramer (A : Matrix (Fin F) (Fin F) ℚ) (b : Fin F → ℚ) :
    exactSolve A b = (A.det)⁻¹ • Matrix.cramer A b := by
  funext i
  simp only [exactSolve, detQ_eq_det, Pi.smul_apply, smul_eq_mul, Matrix.cramer_apply]
  rw [div_eq_inv_mul]

theorem exactSolve_correct {A : Matrix (Fin F) (Fin F) ℚ} (h : A.det ≠ 0)
    (b : Fin F → ℚ) : A *ᵥ exactSolve A b = b := by
  rw [exactSolve_eq_cramer, Matrix.mulVec_smul_assoc, Matrix.mulVec_cramer, smul_smul,
    inv_mul_cancel₀ h, one_smul]

theorem exactSolve_unique {A : Matrix (Fin F) (Fin F) ℚ} (h : A.det ≠ 0)
    {b z : Fin F → ℚ} (hz : A *ᵥ z = b) : z = exactSolve A b := by
  by_contra hne
  have hv : A *ᵥ (z - exactSolve A b) = 0 := by
    rw [Matrix.mulVec_sub, hz, exactSolve_correct h, sub_self]
  exact h (Matrix.exists_mulVec_eq_zero_iff.mp
    ⟨z - exactSolve A b, sub_ne_zero_of_ne hne, hv⟩)

theorem posv_of_cholOk {A : Matrix (Fin F) (Fin F) ℚ} (h : CholOk A) (b : Fin F → ℚ) :
    posv A b = (0, exactSolve A b) := by
  unfold posv
  have hfind : (List.finRange F).find? (fun k => decide (leadingMinor A k ≤ 0)) = none := by
    rw [List.find?_eq_none]
    intro k _
    simpa using not_le_of_lt (h k)
  rw [hfind]

theorem posv_of_not_cholOk {A : Matrix (Fin F) (Fin F) ℚ} (h : ¬CholOk A)
    (b : Fin F → ℚ) : ∃ k : Fin F, posv A b = (k.val + 1, b) := by
  unfold posv
  cases hfind : (List.finRange F).find? (fun k => decide (leadingMinor A k ≤ 0)) with
  | none =>
    exfalso
    apply h
    intro k
    have hk := List.find?_eq_none.mp hfind k (List.mem_finRange k)
    simp only [decide_eq_true_eq] at hk
    exact not_le.mp hk
  | some k => exact ⟨k, rfl⟩

theorem gesv_of_det_ne {A : Matrix (Fin F) (Fin F) ℚ} (h : A.det ≠ 0) (b : Fin F → ℚ) :
    gesv A b = (0, exactSolve A b) := by
  unfold gesv
  rw [detQ_eq_det, if_neg h]

theorem solveOne_ok_of_det {A : Matrix (Fin F) (Fin F) ℚ} (h : A.det ≠ 0)
    (b : Fin F → ℚ) : solveOne A b = .ok (exactSolve A b) := by
  unfold solveOne
  by_cases hc : CholOk A
  · rw [posv_of_cholOk hc]
    simp
  · obtain ⟨k, hk⟩ := posv_of_not_cholOk hc b
    rw [hk, gesv_of_det_ne h]
    simp

theorem solveOne_error {A : Matrix (Fin F) (Fin F) ℚ} {b : Fin F → ℚ} {e : Nat}
    (h : solveOne A b = .error e) : A.det = 0 ∧ ¬CholOk A ∧ e = 1 := by
  by_cases hdet : A.det = 0
  · have hc : ¬CholOk A := by
      intro hc
      unfold solveOne at h
      rw [posv_of_cholOk hc] at h
      exact Except.noConfusion h
    refine ⟨hdet, hc, ?_⟩
    obtain ⟨k, hk⟩ := posv_of_not_cholOk hc b
    unfold solveOne at h
    rw [hk] at h
    unfold gesv at h
    rw [detQ_eq_det, if_pos hdet] at h
    simp at h
    exact h.symm
  · rw [solveOne_ok_of_det hdet] at h
    exact Except.noConfusion h

theorem lsGo_ok (c : Csr) (Y : Matrix (Fin items) (Fin F) ℚ) (reg : ℚ)
    (l : List (Fin users)) (hnd : l.Nodup) (Xc : Matrix (Fin users) (Fin F) ℚ)
    (h : ∀ u ∈ l, (buildA c Y reg u.val).det ≠ 0) :
    ∃ X', lsGo c Y reg l Xc = .ok X' ∧
      (∀ u ∈ l, X' u = exactSolve (buildA c Y reg u.val) (buildB c Y u.val)) ∧
      (∀ u, u ∉ l → X' u = Xc u) := by
  induction l generalizing Xc with
  | nil => exact ⟨Xc, rfl, by simp, fun u _ => rfl⟩
  | cons v rest ih =>
    obtain ⟨hv, hrest⟩ := List.nodup_cons.mp hnd
    obtain ⟨X', hrun, hmem, hnot⟩ := ih hrest
      (Xc.updateRow v (exactSolve (buildA c Y reg v.val) (buildB c Y v.val)))
      (fun u hu => h u (List.mem_cons_of_mem _ hu))
    refine ⟨X', ?_, ?_, ?_⟩
    · simp only [lsGo]
      rw [solveOne_ok_of_det (h v (List.mem_cons_self v rest))]
      exact hrun
    · intro u hu
      rcases List.mem_cons.mp hu with rfl | hu
      · rw [hnot u hv, Matrix.updateRow_self]
      · exact hmem u hu
    · intro u hu
      rw [List.mem_cons, not_or] at hu
      rw [hnot u hu.2, Matrix.updateRow_ne hu.1]

theorem lsGo_error (c : Csr) (Y : Matrix (Fin items) (Fin F) ℚ) (reg : ℚ)
    (l : List (Fin users)) (hnd : l.Nodup) (Xc : Matrix (Fin users) (Fin F) ℚ)
    {e : SolveErr users F} (h : lsGo c Y reg l Xc = .error e) :
    e.user ∈ l ∧
      solveOne (buildA c Y reg e.user.val) (buildB c Y e.user.val) = .error e.code ∧
      e.partialX e.user = Xc e.user := by
  induction l generalizing Xc with
  | nil => exact Except.noConfusion h
  | cons v rest ih =>
    obtain ⟨hv, hrest⟩ := List.nodup_cons.mp hnd
    simp only [lsGo] at h
    cases hs : solveOne (buildA c Y reg v.val) (buildB c Y v.val) with
    | ok x =>
      rw [hs] at h
      simp only at h
      obtain ⟨hmem, hsolve, hpx⟩ := ih hrest _ h
      have hne : e.user ≠ v := fun heq => hv (heq ▸ hmem)
      refine ⟨List.mem_cons_of_mem _ hmem, hsolve, ?_⟩
      rw [hpx, Matrix.updateRow_ne hne]
    | error code =>
      rw [hs] at h
      simp only at h
      cases h
      exact ⟨List.mem_cons_self v rest, hs, rfl⟩

theorem foldl_updateRow_not_mem (g : Fin users → (Fin F → ℚ) → Fin F → ℚ)
    (l : List (Fin users)) (Xc : Matrix (Fin users) (Fin F) ℚ) (u : Fin users)
    (hu : u ∉ l) :
    (l.foldl (fun M v => M.updateRow v (g v (M v))) Xc) u = Xc u := by
  induction l generalizing Xc with
  | nil => rfl
  | cons v rest ih =>
    rw [List.mem_cons, not_or] at hu
    rw [List.foldl_cons, ih _ hu.2, Matrix.updateRow_ne hu.1]

theorem foldl_updateRow_mem (g : Fin users → (Fin F → ℚ) → Fin F → ℚ)
    (l : List (Fin users)) (hnd : l.Nodup) (Xc : Matrix (Fin users) (Fin F) ℚ)
    (u : Fin users) (hu : u ∈ l) :
    (l.foldl (fun M v => M.updateRow v (g v (M v))) Xc) u = g u (Xc u) := by
  induction l generalizing Xc with
  | nil => cases hu
  | cons v rest ih =>
    obtain ⟨hv, hrest⟩ := List.nodup_cons.mp hnd
    rcases List.mem_cons.mp hu with rfl | hu
    · rw [List.foldl_cons, foldl_updateRow_not_mem _ _ _ _ hv, Matrix.updateRow_self]
    · have hne : u ≠ v := fun heq => hv (heq ▸ hu)
      rw [List.foldl_cons, ih hrest _ hu, Matrix.updateRow_ne hne]

theorem listSum_map_neg {α : Type*} (f : α → ℚ) (l : List α) :
    (l.map fun a => -f a).sum = -(l.map f).sum := by
  induction l with
  | nil => simp
  | cons a l ih =>
    simp only [List.map_cons, List.sum_cons, ih]
    ring

theorem dotProduct_listSum {α : Type*} (x : Fin F → ℚ) (l : List α)
    (f : α → Fin F → ℚ) :
    x ⬝ᵥ (l.map f).sum = (l.map fun a => x ⬝ᵥ f a).sum := by
  induction l with
  | nil => simp
  | cons a l ih => simp [dotProduct_add, ih]

theorem dotProduct_vecMulVec_self (y x : Fin F → ℚ) :
    x ⬝ᵥ (Matrix.vecMulVec y y *ᵥ x) = (y ⬝ᵥ x) * (y ⬝ᵥ x) := by
  rw [vecMulVec_mulVec, dotProduct_smul, smul_eq_mul, dotProduct_comm]

theorem dotProduct_initialA (Y : Matrix (Fin items) (Fin F) ℚ) (reg : ℚ)
    (x : Fin F → ℚ) :
    x ⬝ᵥ (initialA Y reg *ᵥ x) =
      (∑ i : Fin items, (Y i ⬝ᵥ x) * (Y i ⬝ᵥ x)) + reg * (x ⬝ᵥ x) := by
  unfold initialA
  rw [Matrix.add_mulVec, dotProduct_add]
  congr 1
  · rw [← Matrix.mulVec_mulVec, dotProduct_mulVec, vecMul_transpose]
    simp only [dotProduct, Matrix.mulVec, mul_comm]
  · rw [Matrix.smul_mulVec_assoc, Matrix.one_mulVec, dotProduct_smul, smul_eq_mul]

theorem quadform_specA (c : Csr) (Y : Matrix (Fin items) (Fin F) ℚ) (reg : ℚ)
    (u : Nat) (x : Fin F → ℚ) :
    x ⬝ᵥ (specA c Y reg u *ᵥ x) =
      ((∑ i : Fin items, (Y i ⬝ᵥ x) * (Y i ⬝ᵥ x)) +
        ((c.obsList u).map
          (fun ic => (ic.2 - 1) * ((yRow Y ic.1 ⬝ᵥ x) * (yRow Y ic.1 ⬝ᵥ x)))).sum) +
      reg * (x ⬝ᵥ x) := by
  unfold specA
  rw [Matrix.add_mulVec, dotProduct_add, listSum_mulVec, dotProduct_listSum,
    dotProduct_initialA]
  have h : (fun (ic : Nat × ℚ) =>
        x ⬝ᵥ (((ic.2 - 1) • Matrix.vecMulVec (yRow Y ic.1) (yRow Y ic.1)) *ᵥ x)) =
      fun ic => (ic.2 - 1) * ((yRow Y ic.1 ⬝ᵥ x) * (yRow Y ic.1 ⬝ᵥ x)) := by
    funext ic
    rw [Matrix.smul_mulVec_assoc, dotProduct_smul, smul_eq_mul,
      dotProduct_vecMulVec_self]
  rw [h]
  ring

theorem obs_square_sum_le (c : Csr) (Y : Matrix (Fin items) (Fin F) ℚ) (u : Nat)
    (x : Fin F → ℚ) (hnd : ((c.obsList u).map Prod.fst).Nodup)
    (hlt : ∀ p ∈ c.obsList u, p.1 < items) :
    ((c.obsList u).map
      (fun ic => (yRow Y ic.1 ⬝ᵥ x) * (yRow Y ic.1 ⬝ᵥ x))).sum ≤
      ∑ i : Fin items, (Y i ⬝ᵥ x) * (Y i ⬝ᵥ x) := by
  set g : Nat → ℚ := fun i => (yRow Y i ⬝ᵥ x) * (yRow Y i ⬝ᵥ x) with hg
  have h1 : ((c.obsList u).map
      (fun ic => (yRow Y ic.1 ⬝ᵥ x) * (yRow Y ic.1 ⬝ᵥ x))).sum =
      (((c.obsList u).map Prod.fst).map g).sum := by
    rw [List.map_map]
    rfl
  have h2 : (((c.obsList u).map Prod.fst).map g).sum =
      ∑ i ∈ ((c.obsList u).map Prod.fst).toFinset, g i :=
    (List.sum_toFinset g hnd).symm
  have hsub : ((c.obsList u).map Prod.fst).toFinset ⊆ Finset.range items := by
    intro i hi
    rw [List.mem_toFinset, List.mem_map] at hi
    obtain ⟨p, hp, rfl⟩ := hi
    exact Finset.mem_range.mpr (hlt p hp)
  have h3 : ∑ i ∈ ((c.obsList u).map Prod.fst).toFinset, g i ≤
      ∑ i ∈ Finset.range items, g i :=
    Finset.sum_le_sum_of_subset_of_nonneg hsub
      (fun i _ _ => mul_self_nonneg _)
  have h4 : ∑ i ∈ Finset.range items, g i = ∑ i : Fin items, (Y i ⬝ᵥ x) * (Y i ⬝ᵥ x) := by
    rw [← Fin.sum_univ_eq_sum_range]
    refine Finset.sum_congr rfl fun i _ => ?_
    have hy : yRow Y i.val = Y i := by
      unfold yRow
      rw [dif_pos i.isLt]
    rw [hg]
    simp only [hy]
  rw [h1, h2, ← h4]
  exact h3

theorem specA_quadform_pos (c : Csr) (Y : Matrix (Fin items) (Fin F) ℚ) {reg : ℚ}
    (u : Nat) (hreg : 0 < reg) (hnd : ((c.obsList u).map Prod.fst).Nodup)
    (hlt : ∀ p ∈ c.obsList u, p.1 < items) (hcp : ∀ p ∈ c.obsList u, 0 ≤ p.2)
    (x : Fin F → ℚ) (hx : x ≠ 0) : 0 < x ⬝ᵥ (specA c Y reg u *ᵥ x) := by
  rw [quadform_specA]
  have hxx : 0 < x ⬝ᵥ x := by
    rcases lt_or_eq_of_le (Finset.sum_nonneg fun i _ => mul_self_nonneg (x i)) with h | h
    · exact h
    · exact absurd (dotProduct_self_eq_zero.mp h.symm) hx
  have hbound : ((c.obsList u).map
      (fun ic => -((yRow Y ic.1 ⬝ᵥ x) * (yRow Y ic.1 ⬝ᵥ x)))).sum ≤
      ((c.obsList u).map
        (fun ic => (ic.2 - 1) * ((yRow Y ic.1 ⬝ᵥ x) * (yRow Y ic.1 ⬝ᵥ x)))).sum := by
    apply List.sum_le_sum
    intro p hp
    have hsq : 0 ≤ (yRow Y p.1 ⬝ᵥ x) * (yRow Y p.1 ⬝ᵥ x) := mul_self_nonneg _
    have hcoef : (-1 : ℚ) ≤ p.2 - 1 := by linarith [hcp p hp]
    calc -((yRow Y p.1 ⬝ᵥ x) * (yRow Y p.1 ⬝ᵥ x)) =
        (-1) * ((yRow Y p.1 ⬝ᵥ x) * (yRow Y p.1 ⬝ᵥ x)) := by ring
      _ ≤ (p.2 - 1) * ((yRow Y p.1 ⬝ᵥ x) * (yRow Y p.1 ⬝ᵥ x)) :=
        mul_le_mul_of_nonneg_right hcoef hsq
  have hneg : ((c.obsList u).map
      (fun ic => -((yRow Y ic.1 ⬝ᵥ x) * (yRow Y ic.1 ⬝ᵥ x)))).sum =
      -((c.obsList u).map
        (fun ic => (yRow Y ic.1 ⬝ᵥ x) * (yRow Y ic.1 ⬝ᵥ x))).sum :=
    listSum_map_neg _ _
  have hmain : 0 ≤ (∑ i : Fin items, (Y i ⬝ᵥ x) * (Y i ⬝ᵥ x)) +
      ((c.obsList u).map
        (fun ic => (ic.2 - 1) * ((yRow Y ic.1 ⬝ᵥ x) * (yRow Y ic.1 ⬝ᵥ x)))).sum := by
    have := obs_square_sum_le c Y u x hnd hlt
    rw [hneg] at hbound
    linarith
  have : 0 < reg * (x ⬝ᵥ x) := mul_pos hreg hxx
  linarith

theorem specA_det_ne_zero (c : Csr) (Y : Matrix (Fin items) (Fin F) ℚ) {reg : ℚ}
    (u : Nat) (hreg : 0 < reg) (hnd : ((c.obsList u).map Prod.fst).Nodup)
    (hlt : ∀ p ∈ c.obsList u, p.1 < items) (hcp : ∀ p ∈ c.obsList u, 0 ≤ p.2) :
    (specA c Y reg u).det ≠ 0 := by
  intro hdet
  obtain ⟨v, hv0, hv⟩ := Matrix.exists_mulVec_eq_zero_iff.mpr hdet
  have hpos := specA_quadform_pos c Y u hreg hnd hlt hcp v hv0
  rw [hv] at hpos
  simp at hpos

theorem cgStep_eq_spec (c : Csr) (Y : Matrix (Fin items) (Fin F) ℚ) (reg : ℚ)
    (u : Nat) (s : CgState F) :
    (cgStep c Y reg u s).1 = cgSpecStep (specA c Y reg u) s := by
  simp only [cgStep, cgSpecStep, cgAp_eq_specA_mulVec, mul_neg_one, neg_smul,
    ← sub_eq_add_neg, CgState.mk.injEq, and_true, true_and]
  exact add_comm _ _

theorem cgLoop_eq_spec (c : Csr) (Y : Matrix (Fin items) (Fin F) ℚ) (reg : ℚ)
    (u : Nat) (n : Nat) (s : CgState F) :
    (cgLoop c Y reg u n s).1 = (cgSpecStep (specA c Y reg u))^[n] s := by
  induction n generalizing s with
  | zero => rfl
  | succ n ih =>
    simp only [cgLoop]
    rw [ih, cgStep_eq_spec, Function.iterate_succ_apply]

theorem least_squares_cg_row (c : Csr) (X : Matrix (Fin users) (Fin F) ℚ)
    (Y : Matrix (Fin items) (Fin F) ℚ) (reg : ℚ) (steps : Int) (u : Fin users) :
    least_squares_cg c X Y reg steps u =
      cgSpec (specA c Y reg u.val) (specB c Y u.val) (X u) steps.toNat := by
  unfold least_squares_cg
  have hrow : (List.foldl
      (fun Xc v => Xc.updateRow v (cgUser c Y reg steps.toNat v.val (Xc v)).1.x)
      X (List.finRange users)) u = (cgUser c Y reg steps.toNat u.val (X u)).1.x :=
    foldl_updateRow_mem (fun v x0 => (cgUser c Y reg steps.toNat v.val x0).1.x)
      (List.finRange users) (List.nodup_finRange users) X u (List.mem_finRange u)
  rw [hrow]
  simp only [cgUser, cgSpec, cgResidual0_eq]
  rw [cgLoop_eq_spec]

theorem lossInnerFold_eq (Y : Matrix (Fin items) (Fin F) ℚ) (x : Fin F → ℚ)
    (obs : List (Nat × ℚ)) (r0 : Fin F → ℚ) (loss0 tc0 : ℚ) :
    lossInnerFold Y x obs r0 loss0 tc0 =
      (r0 + (obs.map fun ic =>
          ((ic.2 - 1) * (yRow Y ic.1 ⬝ᵥ x) - 2 * ic.2) • yRow Y ic.1).sum,
        loss0 + (obs.map Prod.snd).sum, tc0 + (obs.map Prod.snd).sum) := by
  induction obs generalizing r0 loss0 tc0 with
  | nil => simp [lossInnerFold]
  | cons p l ih =>
    simp only [lossInnerFold, List.foldl_cons] at ih ⊢
    rw [ih]
    simp only [List.map_cons, List.sum_cons, Prod.mk.injEq]
    exact ⟨by module, by ring, by ring⟩

theorem lossUserStep_X (c : Csr) (st : LossState users items F) (u : Fin users) :
    (lossUserStep c st u).X = st.X := rfl

theorem lossUserStep_Y (c : Csr) (st : LossState users items F) (u : Fin users) :
    (lossUserStep c st u).Y = st.Y := rfl

theorem lossUserStep_loss (c : Csr) (st : LossState users items F) (u : Fin users) :
    (lossUserStep c st u).loss =
      st.loss + (((c.obsList u.val).map Prod.snd).sum +
        lossR c st.Y (st.X u) u.val ⬝ᵥ st.X u) := by
  simp only [lossUserStep, lossInnerFold_eq, lossR]
  ring

theorem lossUserStep_tconf (c : Csr) (st : LossState users items F) (u : Fin users) :
    (lossUserStep c st u).tconf =
      st.tconf + ((c.obsList u.val).map Prod.snd).sum := by
  simp only [lossUserStep, lossInnerFold_eq]

theorem lossUserStep_unorm (c : Csr) (st : LossState users items F) (u : Fin users) :
    (lossUserStep c st u).unorm = st.unorm + (st.X u ⬝ᵥ st.X u) := rfl

theorem lossFold_X (c : Csr) (l : List (Fin users)) (st : LossState users items F) :
    (l.foldl (lossUserStep c) st).X = st.X := by
  induction l generalizing st with
  | nil => rfl
  | cons u l ih => rw [List.foldl_cons, ih, lossUserStep_X]

theorem lossFold_Y (c : Csr) (l : List (Fin users)) (st : LossState users items F) :
    (l.foldl (lossUserStep c) st).Y = st.Y := by
  induction l generalizing st with
  | nil => rfl
  | cons u l ih => rw [List.foldl_cons, ih, lossUserStep_Y]

theorem lossFold_tconf (c : Csr) (l : List (Fin users)) (st : LossState users items F) :
    (l.foldl (lossUserStep c) st).tconf =
      st.tconf + (l.map fun u => ((c.obsList u.val).map Prod.snd).sum).sum := by
  induction l generalizing st with
  | nil => simp
  | cons u l ih =>
    rw [List.foldl_cons, ih, lossUserStep_tconf]
    simp only [List.map_cons, List.sum_cons]
    ring

theorem lossFold_unorm (c : Csr) (l : List (Fin users)) (st : LossState users items F) :
    (l.foldl (lossUserStep c) st).unorm =
      st.unorm + (l.map fun u => st.X u ⬝ᵥ st.X u).sum := by
  induction l generalizing st with
  | nil => simp
  | cons u l ih =>
    rw [List.foldl_cons, ih, lossUserStep_unorm, lossUserStep_X]
    simp only [List.map_cons, List.sum_cons]
    ring

theorem lossFold_loss (c : Csr) (l : List (Fin users)) (st : LossState users items F) :
    (l.foldl (lossUserStep c) st).loss =
      st.loss + (l.map fun u => ((c.obsList u.val).map Prod.snd).sum +
        lossR c st.Y (st.X u) u.val ⬝ᵥ st.X u).sum := by
  induction l generalizing st with
  | nil => simp
  | cons u l ih =>
    rw [List.foldl_cons, ih, lossUserStep_loss, lossUserStep_X, lossUserStep_Y]
    simp only [List.map_cons, List.sum_cons]
    ring

theorem listSum_map_add {α : Type*} (f g : α → ℚ) (l : List α) :
    (l.map fun x => f x + g x).sum = (l.map f).sum + (l.map g).sum := by
  induction l with
  | nil => simp
  | cons a l ih =>
    simp only [List.map_cons, List.sum_cons, ih]
    ring

theorem calculate_loss_full_X (c : Csr) (X : Matrix (Fin users) (Fin F) ℚ)
    (Y : Matrix (Fin items) (Fin F) ℚ) (reg : ℚ) :
    (calculate_loss_full c X Y reg).2.1 = X := by
  simp only [calculate_loss_full, lossFold_X]

theorem calculate_loss_full_Y (c : Csr) (X : Matrix (Fin users) (Fin F) ℚ)
    (Y : Matrix (Fin items) (Fin F) ℚ) (reg : ℚ) :
    (calculate_loss_full c X Y reg).2.2 = Y := by
  simp only [calculate_loss_full, lossFold_Y]

theorem lsGo_ok_frame (c : Csr) (Y : Matrix (Fin items) (Fin F) ℚ) (reg : ℚ)
    (l : List (Fin users)) (Xc : Matrix (Fin users) (Fin F) ℚ)
    {X' : Matrix (Fin users) (Fin F) ℚ} (h : lsGo c Y reg l Xc = .ok X') :
    ∀ u, u ∉ l → X' u = Xc u := by
  induction l generalizing Xc with
  | nil =>
    cases h
    exact fun u _ => rfl
  | cons v rest ih =>
    intro u hu
    rw [List.mem_cons, not_or] at hu
    simp only [lsGo] at h
    cases hs : solveOne (buildA c Y reg v.val) (buildB c Y v.val) with
    | ok x =>
      rw [hs] at h
      simp only at h
      rw [ih _ h u hu.2, Matrix.updateRow_ne hu.1]
    | error code =>
      rw [hs] at h
      simp only at h
      exact Except.noConfusion h

theorem lsGo_ok_rows (c : Csr) (Y : Matrix (Fin items) (Fin F) ℚ) (reg : ℚ)
    (l : List (Fin users)) (hnd : l.Nodup) (Xc : Matrix (Fin users) (Fin F) ℚ)
    {X' : Matrix (Fin users) (Fin F) ℚ} (h : lsGo c Y reg l Xc = .ok X') :
    ∀ u ∈ l, ∃ x, solveOne (buildA c Y reg u.val) (buildB c Y u.val) = .ok x ∧
      X' u = x := by
  induction l generalizing Xc with
  | nil => exact fun u hu => absurd hu (List.not_mem_nil u)
  | cons v rest ih =>
    obtain ⟨hv, hrest⟩ := List.nodup_cons.mp hnd
    intro u hu
    simp only [lsGo] at h
    cases hs : solveOne (buildA c Y reg v.val) (buildB c Y v.val) with
    | ok x =>
      rw [hs] at h
      simp only at h
      rcases List.mem_cons.mp hu with rfl | hu2
      · refine ⟨x, hs, ?_⟩
        rw [lsGo_ok_frame c Y reg rest _ h u hv, Matrix.updateRow_self]
      · exact ih hrest _ h u hu2
    | error code =>
      rw [hs] at h
      simp only at h
      exact Except.noConfusion h

theorem solveOne_ok_not_chol {A : Matrix (Fin F) (Fin F) ℚ} {b x : Fin F → ℚ}
    (hchol : ¬CholOk A) (h : solveOne A b = .ok x) :
    A.det ≠ 0 ∧ x = exactSolve A b := by
  by_cases hdet : A.det = 0
  · exfalso
    obtain ⟨k, hk⟩ := posv_of_not_cholOk hchol b
    unfold solveOne at h
    rw [hk] at h
    unfold gesv at h
    rw [detQ_eq_det, if_pos hdet] at h
    simp at h
  · rw [solveOne_ok_of_det hdet] at h
    cases h
    exact ⟨hdet, rfl⟩

theorem exactSolve_zero (A : Matrix (Fin F) (Fin F) ℚ) : exactSolve A 0 = 0 := by
  funext i
  show detQ (A.updateColumn i 0) / detQ A = 0
  have h : (A.updateColumn i 0).det = 0 :=
    Matrix.det_eq_zero_of_column_eq_zero i fun k => by
      rw [Matrix.updateColumn_self]
      rfl
  rw [detQ_eq_det, h, zero_div]

theorem foldl_updateRow_id (g : Fin users → (Fin F → ℚ) → Fin F → ℚ)
    (l : List (Fin users)) (Xc : Matrix (Fin users) (Fin F) ℚ)
    (hg : ∀ v x0, g v x0 = x0) :
    l.foldl (fun M v => M.updateRow v (g v (M v))) Xc = Xc := by
  induction l generalizing Xc with
  | nil => rfl
  | cons v rest ih =>
    rw [List.foldl_cons, hg, Matrix.updateRow_eq_self, ih]

end Lemmas

section Claims

attribute [local semireducible] Rat.add Rat.mul Rat.sub Rat.inv

variable {users items F : Nat}

/-- C1: for every well-formed input with regularization > 0,
`least_squares` (solve_direct) succeeds and writes into each user `u`'s
row of `X` the unique solution `x` of `A x = b`, where
`A = YtY + regularization·I + Σ (confidence−1)·yᵢyᵢᵗ` and
`b = Σ confidence·yᵢ` over `u`'s observed items (`specA`, `specB`). -/
theorem least_squares_writes_unique_solution
    (c : Csr) (X : Matrix (Fin users) (Fin F) ℚ) (Y : Matrix (Fin items) (Fin F) ℚ)
    {reg : ℚ} (hreg : 0 < reg) (hwf : c.wf users items) :
    ∃ X', least_squares c X Y reg = .ok X' ∧
      ∀ u : Fin users,
        specA c Y reg u.val *ᵥ X' u = specB c Y u.val ∧
        ∀ z, specA c Y reg u.val *ᵥ z = specB c Y u.val → z = X' u := by
  obtain ⟨-, -, -, -, -, hnd, hbound⟩ := hwf
  have hdet : ∀ u : Fin users, (specA c Y reg u.val).det ≠ 0 := fun u =>
    specA_det_ne_zero c Y u.val hreg (hnd u.val u.isLt)
      (fun p hp => (hbound u.val u.isLt p hp).1)
      (fun p hp => (hbound u.val u.isLt p hp).2)
  have hdetB : ∀ u ∈ List.finRange users, (buildA c Y reg u.val).det ≠ 0 := by
    intro u _
    rw [buildA_eq_specA]
    exact hdet u
  obtain ⟨X', hok, hmem, -⟩ := lsGo_ok c Y reg (List.finRange users)
    (List.nodup_finRange users) X hdetB
  refine ⟨X', hok, fun u => ?_⟩
  have hrow : X' u = exactSolve (specA c Y reg u.val) (specB c Y u.val) := by
    have h := hmem u (List.mem_finRange u)
    rwa [buildA_eq_specA, buildB_eq_specB] at h
  refine ⟨?_, ?_⟩
  · rw [hrow]
    exact exactSolve_correct (hdet u) _
  · intro z hz
    rw [hrow]
    exact exactSolve_unique (hdet u) hz

/-- Witness for C1: one user, one item, `F = 1`, confidence 2,
`Y = [[3]]`, regularization 1; the system is `19·x = 6`. -/
theorem least_squares_writes_unique_solution_witness :
    (0 : ℚ) < 1 ∧ Csr.wf csrOne 1 1 ∧
      (∃ X', least_squares csrOne (!![5] : Matrix (Fin 1) (Fin 1) ℚ) !![3] 1 = .ok X' ∧
        ∀ u : Fin 1,
          specA csrOne !![3] 1 u.val *ᵥ X' u = specB csrOne !![3] u.val ∧
          ∀ z, specA csrOne !![3] 1 u.val *ᵥ z = specB csrOne !![3] u.val → z = X' u) :=
  ⟨by norm_num, by decide,
    least_squares_writes_unique_solution csrOne !![5] !![3] (by norm_num) (by decide)⟩

/-- C2 counterexample: at one user, one item, `F = 1`, `X = [[1]]`,
`Y = [[1]]`, confidence 2, regularization 0, `calculate_loss` returns 0
while the formula claim C2 states (`claimLossC2`, whose numerator has
only the `r·x` terms plus regularization) evaluates to −1: the source
also adds each stored confidence into the loss accumulator. -/
theorem calculate_loss_claimed_formula_counterexample :
    calculate_loss csrOne (!![1] : Matrix (Fin 1) (Fin 1) ℚ) !![1] 0 = 0 ∧
      claimLossC2 csrOne (!![1] : Matrix (Fin 1) (Fin 1) ℚ) !![1] 0 = -1 :=
  ⟨by decide, by decide⟩

/-- C2 (amended): `calculate_loss` returns exactly
`(total_confidence + Σ per-user r·x + λ·(Σ‖x‖² + Σ‖y‖²)) /
(total_confidence + shape₀·shape₁ − nnz)` (`lossClosedForm`): compared
with the claim, the numerator additionally contains the accumulated
total confidence (the source's `loss += confidence`), where the
accumulated total confidence is the sum of the confidences scanned over
every user's row range (the sum of all stored values when the CSR is
well-formed). -/
theorem calculate_loss_matches_code_formula (c : Csr)
    (X : Matrix (Fin users) (Fin F) ℚ) (Y : Matrix (Fin items) (Fin F) ℚ) (reg : ℚ) :
    calculate_loss c X Y reg = lossClosedForm c X Y reg := by
  unfold calculate_loss lossClosedForm codeTotalConf
  simp only [calculate_loss_full, lossFold_loss, lossFold_tconf, lossFold_unorm,
    lossFold_X, lossFold_Y]
  simp only [foldl_add_sum, listSum_map_add, Fin.sum_univ_def, zero_add]
  ring

/-- C3: when the Cholesky attempt (`posv`) reports a nonzero status for
user `u`, `least_squares` retries with the pivoted LU solve on the same
`A` and `b`: if the call then succeeds, the row written for `u` solves
that same system (which is nonsingular); only if the retry also fails —
the system matrix is singular — does the call fail, with an error
carrying a nonzero status code and the user index. -/
theorem direct_solver_cholesky_then_lu
    (c : Csr) (X : Matrix (Fin users) (Fin F) ℚ) (Y : Matrix (Fin items) (Fin F) ℚ)
    (reg : ℚ) (u : Fin users) (hchol : ¬CholOk (buildA c Y reg u.val)) :
    (∀ X', least_squares c X Y reg = .ok X' →
      (buildA c Y reg u.val).det ≠ 0 ∧
        buildA c Y reg u.val *ᵥ X' u = buildB c Y u.val) ∧
    (∀ e : SolveErr users F, least_squares c X Y reg = .error e → e.user = u →
      (buildA c Y reg u.val).det = 0 ∧ e.code ≠ 0) := by
  refine ⟨?_, ?_⟩
  · intro X' hok
    obtain ⟨x, hsolve, hxr⟩ := lsGo_ok_rows c Y reg (List.finRange users)
      (List.nodup_finRange users) X hok u (List.mem_finRange u)
    obtain ⟨hdet, hx⟩ := solveOne_ok_not_chol hchol hsolve
    refine ⟨hdet, ?_⟩
    rw [hxr, hx]
    exact exactSolve_correct hdet _
  · intro e herr hu
    obtain ⟨-, hsolve, -⟩ := lsGo_error c Y reg _ (List.nodup_finRange users) X herr
    rw [hu] at hsolve
    obtain ⟨hdet, -, hcode⟩ := solveOne_error hsolve
    refine ⟨hdet, ?_⟩
    rw [hcode]
    exact one_ne_zero

/-- Witness for C3: a stored confidence of −1 makes the per-user matrix
`[[−4]]`: not positive definite (Cholesky fails) but nonsingular, so the
LU retry solves the same system and the written row satisfies it. -/
theorem direct_solver_cholesky_then_lu_witness :
    ¬CholOk (buildA csrNegConf (!![2] : Matrix (Fin 1) (Fin 1) ℚ) 0 0) ∧
      ((buildA csrNegConf (!![2] : Matrix (Fin 1) (Fin 1) ℚ) 0 0).det ≠ 0 ∧
        buildA csrNegConf (!![2] : Matrix (Fin 1) (Fin 1) ℚ) 0 0 *ᵥ
          (!![1/2] : Matrix (Fin 1) (Fin 1) ℚ) 0 = buildB csrNegConf !![2] 0) :=
  ⟨by decide,
    (direct_solver_cholesky_then_lu csrNegConf !![0] !![2] 0 0 (by decide)).1
      !![1/2] (by decide)⟩

/-- C4: for every user, `least_squares_cg` warm-starts from that user's
current row of `X` (not from zero) and writes back exactly the result of
`cg_steps` iterations (`Int.toNat`, no residual-threshold early exit) of
the spec's conjugate-gradient recurrence `cgSpec` on the explicit
per-user system `A = specA`, `b = specB` — i.e. the source's matrix-free
residual `r₀` and product `Ap` agree with `b − A·x₀` and `A·p`. -/
theorem least_squares_cg_matches_spec_recurrence
    (c : Csr) (X : Matrix (Fin users) (Fin F) ℚ) (Y : Matrix (Fin items) (Fin F) ℚ)
    (reg : ℚ) (steps : Int) (u : Fin users) :
    least_squares_cg c X Y reg steps u =
      cgSpec (specA c Y reg u.val) (specB c Y u.val) (X u) steps.toNat :=
  least_squares_cg_row c X Y reg steps u

/-- C5: for every well-formed input with regularization > 0, a user whose
confidence row stores no items gets the zero vector written into their
row of `X` by `least_squares`. -/
theorem least_squares_empty_row_writes_zero
    (c : Csr) (X : Matrix (Fin users) (Fin F) ℚ) (Y : Matrix (Fin items) (Fin F) ℚ)
    {reg : ℚ} (hreg : 0 < reg) (hwf : c.wf users items)
    (u : Fin users) (hempty : c.obsList u.val = []) :
    ∃ X', least_squares c X Y reg = .ok X' ∧ X' u = 0 := by
  obtain ⟨-, -, -, -, -, hnd, hbound⟩ := hwf
  have hdetB : ∀ v ∈ List.finRange users, (buildA c Y reg v.val).det ≠ 0 := by
    intro v _
    rw [buildA_eq_specA]
    exact specA_det_ne_zero c Y v.val hreg (hnd v.val v.isLt)
      (fun p hp => (hbound v.val v.isLt p hp).1)
      (fun p hp => (hbound v.val v.isLt p hp).2)
  obtain ⟨X', hok, hmem, -⟩ := lsGo_ok c Y reg (List.finRange users)
    (List.nodup_finRange users) X hdetB
  refine ⟨X', hok, ?_⟩
  have hrow := hmem u (List.mem_finRange u)
  have hb : buildB c Y u.val = 0 := by
    unfold buildB
    rw [hempty]
    rfl
  rw [hrow, hb, exactSolve_zero]

/-- Witness for C5: one user with an empty row, `Y = [[3]]`,
regularization 1; the previous row value 5 is overwritten with 0. -/
theorem least_squares_empty_row_writes_zero_witness :
    Csr.wf csrEmptyRow 1 1 ∧ Csr.obsList csrEmptyRow 0 = [] ∧
      (∃ X', least_squares csrEmptyRow (!![5] : Matrix (Fin 1) (Fin 1) ℚ) !![3] 1 = .ok X' ∧
        X' 0 = 0) :=
  ⟨by decide, by decide,
    least_squares_empty_row_writes_zero csrEmptyRow !![5] !![3] (by norm_num)
      (by decide) 0 (by decide)⟩

/-- C6 counterexample: called with `cg_steps = 0` (non-positive),
`least_squares_cg` does not fail with any error — mirroring the source,
which performs no validation and has no failure path — it runs zero
iterations and returns with `X` unchanged. -/
theorem cg_zero_steps_counterexample :
    least_squares_cg csrOne (!![5] : Matrix (Fin 1) (Fin 1) ℚ) !![3] 1 0 = !![5] := by
  decide

/-- C6 (amended): a non-positive `cg_steps` is not validated and raises
no InvalidConfiguration error: `range(cg_steps)` is empty, so the call
performs zero conjugate-gradient iterations and returns leaving `X`
exactly unchanged. -/
theorem cg_nonpositive_steps_noop
    (c : Csr) (X : Matrix (Fin users) (Fin F) ℚ) (Y : Matrix (Fin items) (Fin F) ℚ)
    (reg : ℚ) {steps : Int} (h : steps ≤ 0) :
    least_squares_cg c X Y reg steps = X := by
  unfold least_squares_cg
  exact foldl_updateRow_id (fun v x0 => (cgUser c Y reg steps.toNat v.val x0).1.x)
    (List.finRange users) X
    (fun v x0 => by rw [Int.toNat_of_nonpos h]; rfl)

/-- Witness for C6 (amended) at `cg_steps = −1`. -/
theorem cg_nonpositive_steps_noop_witness :
    (-1 : Int) ≤ 0 ∧
      least_squares_cg csrOne (!![5] : Matrix (Fin 1) (Fin 1) ℚ) !![3] 1 (-1) = !![5] :=
  ⟨by decide, cg_nonpositive_steps_noop csrOne !![5] !![3] 1 (by decide)⟩

/-- C7 counterexample: on a malformed row-pointer array (`csrBadPtr` is
not well-formed) `least_squares` raises nothing: per-user work is
dispatched (the described range is empty), row 0 of `X` is overwritten
with 0 ≠ 5, and the call returns successfully — there is no
ShapeMismatch detection before dispatch. -/
theorem malformed_indptr_counterexample :
    least_squares csrBadPtr (!![5] : Matrix (Fin 1) (Fin 1) ℚ) !![3] 1 = .ok !![0] ∧
      ¬Csr.wf csrBadPtr 1 1 ∧ (!![0] : Matrix (Fin 1) (Fin 1) ℚ) ≠ !![5] :=
  ⟨by decide, by decide, by decide⟩

/-- C7 (amended): the functions perform no validation of the inputs:
for any confidence structure — row pointer array malformed or not — and
any factor matrices of a common width, `least_squares` dispatches the
per-user solves directly on the ranges the row pointers describe, and
whenever each per-user system matrix is nonsingular it succeeds, writing
every user's row; no ShapeMismatch error exists (`least_squares_cg` and
`calculate_loss` have no failure path at all in the core). -/
theorem least_squares_no_input_validation
    (c : Csr) (X : Matrix (Fin users) (Fin F) ℚ) (Y : Matrix (Fin items) (Fin F) ℚ)
    (reg : ℚ) (h : ∀ u : Fin users, (buildA c Y reg u.val).det ≠ 0) :
    ∃ X', least_squares c X Y reg = .ok X' ∧
      ∀ u : Fin users, X' u = exactSolve (buildA c Y reg u.val) (buildB c Y u.val) := by
  obtain ⟨X', hok, hmem, -⟩ := lsGo_ok c Y reg (List.finRange users)
    (List.nodup_finRange users) X (fun u _ => h u)
  exact ⟨X', hok, fun u => hmem u (List.mem_finRange u)⟩

/-- Witness for C7 (amended) at the malformed row-pointer input. -/
theorem least_squares_no_input_validation_witness :
    (∀ u : Fin 1, (buildA csrBadPtr (!![3] : Matrix (Fin 1) (Fin 1) ℚ) 1 u.val).det ≠ 0) ∧
      (∃ X', least_squares csrBadPtr (!![5] : Matrix (Fin 1) (Fin 1) ℚ) !![3] 1 = .ok X' ∧
        ∀ u : Fin 1, X' u =
          exactSolve (buildA csrBadPtr !![3] 1 u.val) (buildB csrBadPtr !![3] u.val)) :=
  ⟨fun u => by rw [← detQ_eq_det]; revert u; decide,
    least_squares_no_input_validation csrBadPtr !![5] !![3] 1
      (fun u => by rw [← detQ_eq_det]; revert u; decide)⟩

/-- C8: `calculate_loss` leaves both `X` and `Y` unchanged: the factor
matrices recorded by the embedding after the call equal the inputs, for
every input (the source writes only its scratch vector and scalar
reduction variables). -/
theorem calculate_loss_preserves_factors
    (c : Csr) (X : Matrix (Fin users) (Fin F) ℚ) (Y : Matrix (Fin items) (Fin F) ℚ)
    (reg : ℚ) :
    (calculate_loss_full c X Y reg).2.1 = X ∧ (calculate_loss_full c X Y reg).2.2 = Y :=
  ⟨calculate_loss_full_X c X Y reg, calculate_loss_full_Y c X Y reg⟩

/-- C9: when `least_squares` fails with the singular-matrix error for
user `u`, row `u` of `X` is exactly as it was before the call: the
candidate solution is copied into `X` only when the last solve attempt
reports a zero status. -/
theorem least_squares_error_leaves_row_unchanged
    (c : Csr) (X : Matrix (Fin users) (Fin F) ℚ) (Y : Matrix (Fin items) (Fin F) ℚ)
    (reg : ℚ) {e : SolveErr users F} (h : least_squares c X Y reg = .error e) :
    e.partialX e.user = X e.user :=
  (lsGo_error c Y reg (List.finRange users) (List.nodup_finRange users) X h).2.2

/-- Witness for C9: with `Y = [[0]]` and regularization 0 the system is
`[[0]]·x = 0`; both solves fail, the call errors on user 0 with status 1,
and row 0 still holds its original value 7. -/
theorem least_squares_error_leaves_row_unchanged_witness :
    least_squares csrEmptyRow (!![7] : Matrix (Fin 1) (Fin 1) ℚ) !![0] 0 =
        .error ⟨1, 0, !![7]⟩ ∧
      (⟨1, 0, !![7]⟩ : SolveErr 1 1).partialX (0 : Fin 1) =
        (!![7] : Matrix (Fin 1) (Fin 1) ℚ) (0 : Fin 1) :=
  ⟨by decide,
    least_squares_error_leaves_row_unchanged csrEmptyRow !![7] !![0] 0 (by decide)⟩

/-- C10: the division `alpha = rsold / (p·Ap)` in `least_squares_cg` is
unguarded (the model records every denominator it divides by), and the
zero-denominator case is reachable from a well-formed input: with one
user having zero observed items and an all-zero current factor row,
`cg_steps = 1` yields `p·Ap = 0` and `rsold = 0` at the first iteration. -/
theorem cg_zero_denominator_reachable :
    Csr.wf csrEmptyRow 1 1 ∧
      cgTrace csrEmptyRow (!![0] : Matrix (Fin 1) (Fin 1) ℚ) !![1] 1 1 (0 : Fin 1) =
        [(0, 0)] :=
  ⟨by decide, by decide⟩

end Claims

end Implicit
